import Mathlib

/-!
Shallow embedding of `src/main.rs` from the cmps-431 Rust mutex and
multithreading exercise: a fixed ledger of named accounts, a fixed queue of
transactions, an executor (`execute_transaction`) that applies the withdraw
leg and the deposit leg of one transaction, and a dispatcher that spawns one
worker per transaction, each worker holding the ledger and queue mutexes for
its whole critical section.

Modelling choices:
* `f64` balances and amounts are embedded as `Rat` (exact arithmetic); every
  amount in the program is a small integer, so every operation the program
  performs is exact in `f64` as well.
* each `println!` of the executor is embedded as one constructor of
  `LogEntry`, carrying the interpolated values; the executor returns the
  ledger together with the list of emitted entries, in print order.
* the mutex-protected concurrent dispatcher is embedded as a labelled
  transition system (`StepL` / `RunTr`): each worker goes through the phases
  acquire-lock, apply withdraw leg, apply deposit leg and release; only the
  lock holder may mutate the ledger, mirroring the `Mutex` discipline in
  `main`, where the locks are held across both legs.
-/

/-- Mirror of the Rust struct `Transaction` (`id: i32`, `amount: f64`,
`withdraw_account: String`, `deposit_account: String`). -/
structure Transaction where
  id : Int
  amount : Rat
  withdraw_account : String
  deposit_account : String
deriving Repr, DecidableEq, Inhabited

/-- Mirror of the Rust struct `Account` (`name: String`,
`balance: RefCell<f64>`). -/
structure Account where
  name : String
  balance : Rat
deriving Repr, DecidableEq, Inhabited

/-- One diagnostic line printed by `execute_transaction`; each constructor
stands for one of its `println!` format strings, carrying the interpolated
values. -/
inductive LogEntry where
  | currentTx (id : Int)
  | accountNotFound (name : String)
  | withdrawing (amount : Rat) (name : String)
  | depositing (amount : Rat) (name : String)
  | txCompleted (id : Int)
deriving Repr, DecidableEq

/-- Mutation of the balance of the first account whose name matches `n`, as
the Rust code does via `accounts.iter().find(...)` followed by
`*account.balance.borrow_mut() -= / += amount`. Accounts other than the
first match are untouched. -/
def applyToFirst (n : String) (f : Rat → Rat) : List Account → List Account
  | [] => []
  | a :: rest =>
    if a.name == n then { a with balance := f a.balance } :: rest
    else a :: applyToFirst n f rest

/-- The withdraw leg of `execute_transaction` (lines 27-46 of `main.rs`):
if `withdraw_account` is non-empty, look it up; on a miss emit the
not-found diagnostic, on a hit subtract `amount` from its balance and emit
the withdrawing diagnostic. Returns the new ledger and the emitted log. -/
def withdraw_leg (t : Transaction) (accounts : List Account) :
    List Account × List LogEntry :=
  if t.withdraw_account.length > 0 then
    match accounts.find? (fun a => a.name == t.withdraw_account) with
    | none => (accounts, [.accountNotFound t.withdraw_account])
    | some account =>
      (applyToFirst t.withdraw_account (fun b => b - t.amount) accounts,
       [.withdrawing t.amount account.name])
  else (accounts, [])

/-- The deposit leg of `execute_transaction` (lines 49-65 of `main.rs`):
if `deposit_account` is non-empty, look it up; on a miss emit the not-found
diagnostic, on a hit add `amount` to its balance and emit the depositing
diagnostic. -/
def deposit_leg (t : Transaction) (accounts : List Account) :
    List Account × List LogEntry :=
  if t.deposit_account.length > 0 then
    match accounts.find? (fun a => a.name == t.deposit_account) with
    | none => (accounts, [.accountNotFound t.deposit_account])
    | some account =>
      (applyToFirst t.deposit_account (fun b => b + t.amount) accounts,
       [.depositing t.amount account.name])
  else (accounts, [])

/-- Mirror of `fn execute_transaction(transaction, accounts)`: print the
transaction id, attempt the withdraw leg, then attempt the deposit leg on
the resulting ledger, then print the completion marker. Returns the final
ledger together with the printed lines, in print order. -/
def execute_transaction (t : Transaction) (accounts : List Account) :
    List Account × List LogEntry :=
  let w := withdraw_leg t accounts
  let d := deposit_leg t w.1
  (d.1, .currentTx t.id :: (w.2 ++ d.2 ++ [.txCompleted t.id]))

/-- Ledger effect of the withdraw leg alone. -/
def withdraw_leg_state (t : Transaction) (accounts : List Account) :
    List Account :=
  (withdraw_leg t accounts).1

/-- Ledger effect of the deposit leg alone. -/
def deposit_leg_state (t : Transaction) (accounts : List Account) :
    List Account :=
  (deposit_leg t accounts).1

/-- Ledger effect of `execute_transaction`, ignoring the diagnostics. -/
def execute_tx_state (t : Transaction) (accounts : List Account) :
    List Account :=
  (execute_transaction t accounts).1

/-- The account lookup of §4.1 of the design: exact, case-sensitive name
match, with an empty name never found. In `main.rs` this is the guard
`transaction.*_account.len() > 0` combined with `accounts.iter().find(...)`. -/
def find_account (accounts : List Account) (name : String) : Option Account :=
  if name.length > 0 then accounts.find? (fun a => a.name == name) else none

/-- Sum of all balances in the ledger. -/
def sumBal (accounts : List Account) : Rat :=
  (accounts.map Account.balance).sum

/-- Serial execution of a list of transactions, in order, threading the
ledger through `execute_transaction`. -/
def serialExec (txs : List Transaction) (accounts : List Account) :
    List Account :=
  txs.foldl (fun l t => execute_tx_state t l) accounts

/-- The seven hard-coded transactions of `main` (lines 75-118). -/
def mainQueue : List Transaction :=
  [ ⟨1, 5, "A1", "A2"⟩,
    ⟨2, 7, "A3", ""⟩,
    ⟨3, 10, "A2", "A1"⟩,
    ⟨4, 15, "A1", "A3"⟩,
    ⟨5, 8, "A1", "A3"⟩,
    ⟨6, 3, "A2", "A1"⟩,
    ⟨7, 6, "A3", "A1"⟩ ]

/-- The three hard-coded accounts of `main` (lines 123-136), all starting
at balance 0. -/
def mainAccounts : List Account :=
  [⟨"A1", 0⟩, ⟨"A2", 0⟩, ⟨"A3", 0⟩]

/-- Canonical form of one leg, parameterised by the signed amount `c` added
to the first account named `n` (withdraw uses `c = -amount`, deposit uses
`c = amount`); a leg with an empty or unknown name leaves the ledger
unchanged. -/
def legState (n : String) (c : Rat) (l : List Account) : List Account :=
  if n.length > 0 then
    if (l.find? (fun a => a.name == n)).isSome then
      applyToFirst n (fun b => b + c) l
    else l
  else l

theorem applyToFirst_map_name (n : String) (f : Rat → Rat) (l : List Account) :
    (applyToFirst n f l).map Account.name = l.map Account.name := by
  induction l with
  | nil => rfl
  | cons a rest ih =>
    by_cases h : a.name == n <;> simp [applyToFirst, h, ih]

theorem find?_name_isSome_eq_any (n : String) (l : List Account) :
    (l.find? (fun a => a.name == n)).isSome =
      (l.map Account.name).any (fun m => m == n) := by
  induction l with
  | nil => rfl
  | cons a rest ih =>
    by_cases h : a.name == n <;> simp [List.find?, h, ih]

theorem applyToFirst_find?_isSome (n m : String) (f : Rat → Rat)
    (l : List Account) :
    ((applyToFirst n f l).find? (fun a => a.name == m)).isSome =
      (l.find? (fun a => a.name == m)).isSome := by
  rw [find?_name_isSome_eq_any, find?_name_isSome_eq_any,
    applyToFirst_map_name]

theorem withdraw_leg_state_eq (t : Transaction) (l : List Account) :
    withdraw_leg_state t l = legState t.withdraw_account (-t.amount) l := by
  have hf : (fun b => b - t.amount) = fun b => b + (-t.amount) := by
    funext b; ring
  unfold withdraw_leg_state withdraw_leg legState
  rcases h : l.find? (fun a => a.name == t.withdraw_account) with _ | a <;>
    simp [h, hf] <;> split <;> rfl

theorem deposit_leg_state_eq (t : Transaction) (l : List Account) :
    deposit_leg_state t l = legState t.deposit_account t.amount l := by
  unfold deposit_leg_state deposit_leg legState
  rcases h : l.find? (fun a => a.name == t.deposit_account) with _ | a <;>
    simp [h] <;> split <;> rfl

theorem execute_tx_state_eq (t : Transaction) (l : List Account) :
    execute_tx_state t l =
      legState t.deposit_account t.amount
        (legState t.withdraw_account (-t.amount) l) := by
  rw [execute_tx_state, execute_transaction]
  show deposit_leg_state t (withdraw_leg_state t l) = _
  rw [withdraw_leg_state_eq, deposit_leg_state_eq]

theorem legState_map_name (n : String) (c : Rat) (l : List Account) :
    (legState n c l).map Account.name = l.map Account.name := by
  unfold legState
  split
  · split
    · exact applyToFirst_map_name n _ l
    · rfl
  · rfl

theorem applyToFirst_add_comm (n m : String) (c d : Rat) (l : List Account) :
    applyToFirst n (fun b => b + c) (applyToFirst m (fun b => b + d) l) =
      applyToFirst m (fun b => b + d) (applyToFirst n (fun b => b + c) l) := by
  induction l with
  | nil => rfl
  | cons a rest ih =>
    by_cases hm : a.name == m <;> by_cases hn : a.name == n <;>
      simp [applyToFirst, hm, hn, ih]
    ring

theorem legState_comm (n m : String) (c d : Rat) (l : List Account) :
    legState n c (legState m d l) = legState m d (legState n c l) := by
  by_cases hn : n.length > 0
  case neg => simp [legState, hn]
  by_cases hm : m.length > 0
  case neg => simp [legState, hm]
  by_cases hfn : (l.find? (fun a => a.name == n)).isSome
  · by_cases hfm : (l.find? (fun a => a.name == m)).isSome
    · simp [legState, hn, hm, hfn, hfm, applyToFirst_find?_isSome,
        applyToFirst_add_comm]
    · simp [legState, hn, hm, hfn, hfm, applyToFirst_find?_isSome]
  · by_cases hfm : (l.find? (fun a => a.name == m)).isSome
    · simp [legState, hn, hm, hfn, hfm, applyToFirst_find?_isSome]
    · simp [legState, hn, hm, hfn, hfm]

theorem execute_tx_state_comm (t u : Transaction) (l : List Account) :
    execute_tx_state t (execute_tx_state u l) =
      execute_tx_state u (execute_tx_state t l) := by
  simp only [execute_tx_state_eq]
  rw [legState_comm t.withdraw_account u.deposit_account,
    legState_comm t.deposit_account u.deposit_account,
    legState_comm t.withdraw_account u.withdraw_account,
    legState_comm t.deposit_account u.withdraw_account]

theorem serialExec_perm {txs txs' : List Transaction}
    (h : txs.Perm txs') (l : List Account) :
    serialExec txs l = serialExec txs' l := by
  induction h generalizing l with
  | nil => rfl
  | cons t _ ih => simp only [serialExec, List.foldl_cons] at *; exact ih _
  | swap t u rest =>
    simp only [serialExec, List.foldl_cons]
    rw [execute_tx_state_comm]
  | trans _ _ ih₁ ih₂ => exact (ih₁ l).trans (ih₂ l)

theorem sumBal_cons (a : Account) (l : List Account) :
    sumBal (a :: l) = a.balance + sumBal l := by
  simp [sumBal]

theorem sumBal_applyToFirst_add (n : String) (c : Rat) (l : List Account)
    (h : (l.find? (fun a => a.name == n)).isSome) :
    sumBal (applyToFirst n (fun b => b + c) l) = sumBal l + c := by
  induction l with
  | nil => simp [List.find?] at h
  | cons a rest ih =>
    by_cases ha : a.name == n
    · simp only [applyToFirst, ha, if_pos, sumBal_cons]
      ring
    · simp only [List.find?, ha, Bool.false_eq_true, if_false] at h
      simp only [applyToFirst, ha, Bool.false_eq_true, if_false, sumBal_cons,
        ih h]
      ring

theorem sumBal_legState (n : String) (c : Rat) (l : List Account)
    (h1 : n.length > 0) (h2 : (l.find? (fun a => a.name == n)).isSome) :
    sumBal (legState n c l) = sumBal l + c := by
  simp [legState, h1, h2, sumBal_applyToFirst_add n c l h2]

theorem legState_find?_isSome (n m : String) (c : Rat) (l : List Account) :
    ((legState n c l).find? (fun a => a.name == m)).isSome =
      (l.find? (fun a => a.name == m)).isSome := by
  rw [find?_name_isSome_eq_any, legState_map_name,
    ← find?_name_isSome_eq_any]

theorem applyToFirst_applyToFirst (n : String) (f g : Rat → Rat)
    (l : List Account) :
    applyToFirst n g (applyToFirst n f l) =
      applyToFirst n (fun b => g (f b)) l := by
  induction l with
  | nil => rfl
  | cons a rest ih =>
    by_cases ha : a.name == n <;> simp [applyToFirst, ha, ih]

theorem applyToFirst_id (n : String) (l : List Account) :
    applyToFirst n (fun b => b) l = l := by
  induction l with
  | nil => rfl
  | cons a rest ih =>
    by_cases ha : a.name == n <;> simp [applyToFirst, ha, ih]

theorem applyToFirst_forall₂ (n : String) (f : Rat → Rat) (l : List Account) :
    List.Forall₂ (fun a b => a.name = b.name ∧ (a.name ≠ n → b = a))
      l (applyToFirst n f l) := by
  induction l with
  | nil => exact .nil
  | cons a rest ih =>
    by_cases ha : a.name == n
    · simp only [applyToFirst, ha, if_pos]
      refine .cons ⟨rfl, fun hne => absurd (by exact beq_iff_eq.mp ha) hne⟩ ?_
      exact List.forall₂_same.mpr fun x _ => ⟨rfl, fun _ => rfl⟩
    · simp only [applyToFirst, ha, Bool.false_eq_true, if_false]
      exact .cons ⟨rfl, fun _ => rfl⟩ ih

theorem forall₂_comp {α β γ : Type} {R : α → β → Prop} {S : β → γ → Prop}
    {T : α → γ → Prop} (h : ∀ a b c, R a b → S b c → T a c) :
    ∀ {l : List α} {m : List β} {k : List γ},
      List.Forall₂ R l m → List.Forall₂ S m k → List.Forall₂ T l k := by
  intro l m k h1 h2
  induction h1 generalizing k with
  | nil => cases h2; exact .nil
  | cons hr _ ih =>
    cases h2 with
    | cons hs h2t => exact .cons (h _ _ _ hr hs) (ih h2t)

theorem legState_forall₂ (n : String) (c : Rat) (l : List Account) :
    List.Forall₂ (fun a b => a.name = b.name ∧ (a.name ≠ n → b = a))
      l (legState n c l) := by
  unfold legState
  split
  · split
    · exact applyToFirst_forall₂ n _ l
    · exact List.forall₂_same.mpr fun x _ => ⟨rfl, fun _ => rfl⟩
  · exact List.forall₂_same.mpr fun x _ => ⟨rfl, fun _ => rfl⟩

theorem find?_applyToFirst_same (n : String) (f : Rat → Rat)
    (l : List Account) (a : Account)
    (h : l.find? (fun x => x.name == n) = some a) :
    (applyToFirst n f l).find? (fun x => x.name == n) =
      some ⟨a.name, f a.balance⟩ := by
  induction l with
  | nil => simp [List.find?] at h
  | cons b rest ih =>
    by_cases hb : b.name == n
    · simp only [List.find?, hb, if_pos, Option.some.injEq] at h
      subst h
      simp [applyToFirst, List.find?, hb]
    · simp only [List.find?, hb, Bool.false_eq_true, if_false] at h
      simp [applyToFirst, List.find?, hb, ih h]

/-- C1: for every transaction whose withdraw and deposit legs both name
accounts that exist in the ledger (per the §4.1 lookup, which never finds
an empty name), `execute_transaction` leaves the sum of all balances
unchanged. -/
theorem conservation (t : Transaction) (l : List Account)
    (hw : (find_account l t.withdraw_account).isSome)
    (hd : (find_account l t.deposit_account).isSome) :
    sumBal (execute_tx_state t l) = sumBal l := by
  unfold find_account at hw hd
  by_cases h1 : t.withdraw_account.length > 0
  case neg => simp [h1] at hw
  by_cases h2 : t.deposit_account.length > 0
  case neg => simp [h2] at hd
  simp only [h1, if_pos] at hw
  simp only [h2, if_pos] at hd
  have hd' : ((legState t.withdraw_account (-t.amount) l).find?
      (fun a => a.name == t.deposit_account)).isSome := by
    rw [legState_find?_isSome]; exact hd
  rw [execute_tx_state_eq, sumBal_legState _ _ _ h2 hd',
    sumBal_legState _ _ _ h1 hw]
  ring

/-- Witness for C1 at the first hard-coded transaction and the hard-coded
ledger. -/
theorem conservation_witness :
    ((find_account mainAccounts "A1").isSome ∧
      (find_account mainAccounts "A2").isSome) ∧
    sumBal (execute_tx_state ⟨1, 5, "A1", "A2"⟩ mainAccounts) =
      sumBal mainAccounts :=
  ⟨⟨by decide, by decide⟩,
    conservation ⟨1, 5, "A1", "A2"⟩ mainAccounts (by decide) (by decide)⟩

/-- C5: the two legs of `execute_transaction` are independent: the deposit
leg is attempted on the ledger left by the (possibly failed) withdrawal,
the withdraw leg does not read the deposit field, the deposit leg does not
read the withdraw field, and the deposit lookup succeeds after the withdraw
leg exactly when it succeeds on the incoming ledger. -/
theorem legs_independent (t : Transaction) (l : List Account) (x y : String) :
    execute_tx_state t l = deposit_leg_state t (withdraw_leg_state t l) ∧
    withdraw_leg { t with deposit_account := y } l = withdraw_leg t l ∧
    deposit_leg { t with withdraw_account := x } l = deposit_leg t l ∧
    ((withdraw_leg_state t l).find?
        (fun a => a.name == t.deposit_account)).isSome =
      (l.find? (fun a => a.name == t.deposit_account)).isSome := by
  refine ⟨rfl, rfl, rfl, ?_⟩
  rw [withdraw_leg_state_eq, legState_find?_isSome]

/-- C6: when the withdraw leg finds its account, `execute_transaction`
subtracts the amount unconditionally: the ledger is exactly `applyToFirst`
with subtraction, and the found account ends at `balance - amount`, with no
sufficiency condition anywhere. -/
theorem unconditional_withdraw (t : Transaction) (l : List Account)
    (a : Account) (h : find_account l t.withdraw_account = some a) :
    withdraw_leg_state t l =
      applyToFirst t.withdraw_account (fun b => b - t.amount) l ∧
    (withdraw_leg_state t l).find?
        (fun x => x.name == t.withdraw_account) =
      some ⟨a.name, a.balance - t.amount⟩ := by
  unfold find_account at h
  by_cases h1 : t.withdraw_account.length > 0
  case neg => simp [h1] at h
  simp only [h1, if_pos] at h
  constructor
  · unfold withdraw_leg_state withdraw_leg
    simp [h1, h]
  · unfold withdraw_leg_state withdraw_leg
    simp only [h1, if_pos, h]
    exact find?_applyToFirst_same _ _ _ _ h

/-- Witness for C6: withdrawing 5 from A1 with starting balance 0 leaves
A1 at -5, a negative balance, with no error. -/
theorem unconditional_withdraw_witness :
    (find_account [⟨"A1", (0 : Rat)⟩] "A1" = some ⟨"A1", 0⟩) ∧
    (withdraw_leg_state ⟨1, 5, "A1", ""⟩ [⟨"A1", 0⟩] =
        applyToFirst "A1" (fun b => b - 5) [⟨"A1", 0⟩] ∧
      (withdraw_leg_state ⟨1, 5, "A1", ""⟩ [⟨"A1", 0⟩]).find?
          (fun x => x.name == "A1") = some ⟨"A1", 0 - 5⟩) ∧
    (0 - 5 : Rat) < 0 :=
  ⟨by decide,
    unconditional_withdraw ⟨1, 5, "A1", ""⟩ [⟨"A1", 0⟩] ⟨"A1", 0⟩ (by decide),
    by norm_num⟩

/-- C9: frame property: `execute_transaction` never changes any account
name (positionally), and every account whose name is neither the withdraw
name nor the deposit name is left exactly as it was. -/
theorem frame_property (t : Transaction) (l : List Account) :
    (execute_tx_state t l).map Account.name = l.map Account.name ∧
    List.Forall₂
      (fun a b => a.name = b.name ∧
        (a.name ≠ t.withdraw_account → a.name ≠ t.deposit_account → b = a))
      l (execute_tx_state t l) := by
  constructor
  · rw [execute_tx_state_eq, legState_map_name, legState_map_name]
  · rw [execute_tx_state_eq]
    refine forall₂_comp ?_
      (legState_forall₂ t.withdraw_account (-t.amount) l)
      (legState_forall₂ t.deposit_account t.amount _)
    rintro a b c ⟨hab, hba⟩ ⟨hbc, hcb⟩
    refine ⟨hab.trans hbc, fun hw hd => ?_⟩
    rw [hcb (hab ▸ hd), hba hw]

/-- C10: a self-transfer on an account the lookup finds is a complete
no-op on the ledger: the amount is subtracted and then added back. -/
theorem self_transfer_noop (t : Transaction) (l : List Account)
    (hself : t.withdraw_account = t.deposit_account)
    (hfound : (find_account l t.withdraw_account).isSome) :
    execute_tx_state t l = l := by
  unfold find_account at hfound
  by_cases h1 : t.withdraw_account.length > 0
  case neg => simp [h1] at hfound
  simp only [h1, if_pos] at hfound
  rw [execute_tx_state_eq, ← hself]
  simp only [legState, h1, if_pos, hfound, if_true,
    legState_find?_isSome, applyToFirst_find?_isSome,
    applyToFirst_applyToFirst]
  have hfun : (fun b : Rat => b + -t.amount + t.amount) = fun b : Rat => b := by
    funext b; ring
  rw [hfun, applyToFirst_id]

/-- Witness for C10: a 5-unit self-transfer on A1 leaves the hard-coded
ledger unchanged. -/
theorem self_transfer_noop_witness :
    ((⟨9, 5, "A1", "A1"⟩ : Transaction).withdraw_account =
        (⟨9, 5, "A1", "A1"⟩ : Transaction).deposit_account ∧
      (find_account mainAccounts "A1").isSome) ∧
    execute_tx_state ⟨9, 5, "A1", "A1"⟩ mainAccounts = mainAccounts :=
  ⟨⟨rfl, by decide⟩,
    self_transfer_noop ⟨9, 5, "A1", "A1"⟩ mainAccounts rfl (by decide)⟩

theorem mainExec_eval : serialExec mainQueue mainAccounts =
    [⟨"A1", -9⟩, ⟨"A2", -8⟩, ⟨"A3", 10⟩] := by
  norm_num +decide [serialExec, execute_tx_state, execute_transaction,
    withdraw_leg, deposit_leg, applyToFirst, mainQueue, mainAccounts,
    List.find?]

/-- C7: serial execution is order-independent: any permutation of the
transaction list produces the same final ledger from the same starting
accounts. -/
theorem order_independent (txs txs' : List Transaction) (l : List Account)
    (h : txs.Perm txs') :
    serialExec txs l = serialExec txs' l :=
  serialExec_perm h l

/-- Witness for C7: the hard-coded queue and its reversal agree on the
hard-coded ledger. -/
theorem order_independent_witness :
    mainQueue.Perm mainQueue.reverse ∧
    serialExec mainQueue mainAccounts =
      serialExec mainQueue.reverse mainAccounts :=
  ⟨(mainQueue.reverse_perm).symm,
    order_independent mainQueue mainQueue.reverse mainAccounts
      (mainQueue.reverse_perm).symm⟩

/-- C2 counterexample: serial execution of the hard-coded queue on the
hard-coded accounts does not produce the balances the spec expects
(A1 = -9, A2 = -2, A3 = -9); the actual result is A1 = -9, A2 = -8,
A3 = 10. -/
theorem example_balances_counterexample :
    serialExec mainQueue mainAccounts ≠
      [⟨"A1", -9⟩, ⟨"A2", -2⟩, ⟨"A3", -9⟩] := by
  rw [mainExec_eval]
  decide

/-- C2 (amended): starting from A1 = A2 = A3 = 0 and applying the seven
hard-coded transactions in any serial order, the final balances are
A1 = -9, A2 = -8, A3 = 10. -/
theorem example_final_balances (txs : List Transaction)
    (h : txs.Perm mainQueue) :
    serialExec txs mainAccounts = [⟨"A1", -9⟩, ⟨"A2", -8⟩, ⟨"A3", 10⟩] := by
  rw [serialExec_perm h]
  exact mainExec_eval

/-- Witness for C2 at the queue order itself. -/
theorem example_final_balances_witness :
    serialExec mainQueue mainAccounts =
      [⟨"A1", -9⟩, ⟨"A2", -8⟩, ⟨"A3", 10⟩] :=
  example_final_balances mainQueue (List.Perm.refl _)

/-- Recogniser for the not-found diagnostic, the only diagnostic the code
emits for a bad leg. -/
def isNotFoundDiag : LogEntry → Bool
  | .accountNotFound _ => true
  | _ => false

/-- C4 counterexample: for a transaction whose withdraw leg names the empty
string, the code emits no diagnostic at all for that leg (the claim says a
diagnostic is produced): the log is just the header, the deposit line and
the footer, with no not-found entry. -/
theorem missing_account_counterexample :
    (execute_transaction ⟨1, 5, "", "A1"⟩ [⟨"A1", 0⟩]).2 =
      [.currentTx 1, .depositing 5 "A1", .txCompleted 1] ∧
    (execute_transaction ⟨1, 5, "", "A1"⟩ [⟨"A1", 0⟩]).2.any isNotFoundDiag =
      false := by
  decide

/-- C4 (amended): a leg whose name the §4.1 lookup rejects (non-existent or
empty) leaves the ledger untouched for that leg while the other leg is
still attempted in full; the not-found diagnostic is emitted exactly when
the name is non-empty, an empty-name leg being skipped silently. `leg`
selects the withdraw (`true`) or deposit (`false`) leg. -/
theorem missing_account_leg (t : Transaction) (l : List Account) (leg : Bool)
    (hmiss :
      find_account l (cond leg t.withdraw_account t.deposit_account) = none) :
    if leg then
      execute_transaction t l =
        ((deposit_leg t l).1,
          .currentTx t.id ::
            ((if t.withdraw_account.length > 0 then
                [LogEntry.accountNotFound t.withdraw_account]
              else []) ++
              ((deposit_leg t l).2 ++ [.txCompleted t.id])))
    else
      execute_transaction t l =
        ((withdraw_leg t l).1,
          .currentTx t.id ::
            ((withdraw_leg t l).2 ++
              ((if t.deposit_account.length > 0 then
                  [LogEntry.accountNotFound t.deposit_account]
                else []) ++ [.txCompleted t.id]))) := by
  cases leg with
  | true =>
    simp only [cond_true] at hmiss
    unfold find_account at hmiss
    simp only [if_true]
    by_cases h1 : t.withdraw_account.length > 0
    · simp only [h1, if_pos] at hmiss
      unfold execute_transaction withdraw_leg
      simp [h1, hmiss]
    · unfold execute_transaction withdraw_leg
      simp [h1]
  | false =>
    simp only [cond_false] at hmiss
    unfold find_account at hmiss
    simp only [Bool.false_eq_true, if_false]
    by_cases h2 : t.deposit_account.length > 0
    · simp only [h2, if_pos] at hmiss
      have hmiss' : (withdraw_leg t l).1.find?
          (fun a => a.name == t.deposit_account) = none := by
        rcases hfa : (withdraw_leg t l).1.find?
            (fun a => a.name == t.deposit_account) with _ | a
        · exact hfa
        · exfalso
          have hkey : ((withdraw_leg t l).1.find?
              (fun a => a.name == t.deposit_account)).isSome =
              (l.find? (fun a => a.name == t.deposit_account)).isSome := by
            show ((withdraw_leg_state t l).find? _).isSome = _
            rw [withdraw_leg_state_eq, legState_find?_isSome]
          rw [hfa, hmiss] at hkey
          simp at hkey
      unfold execute_transaction deposit_leg
      simp [h2, hmiss']
    · unfold execute_transaction deposit_leg
      simp [h2]

/-! ### The concurrent dispatcher

`main` spawns one thread per transaction index; each thread locks the
accounts mutex, then the transactions mutex, reads its transaction, runs
`execute_transaction` (withdraw leg then deposit leg) and releases both
locks when its closure ends. We model this as a labelled transition system:
a worker is either not started (phase 0), holding the lock with the
withdraw leg pending (phase 1), holding the lock with the deposit leg
pending (phase 2), or finished with the lock released (phase 3). Only the
lock holder can take a mutation step, which is exactly the guarantee the
two mutexes provide, since both are held across the whole critical
section. -/

/-- Global state of the dispatcher model: who holds the lock, each worker's
phase, and the shared ledger. -/
structure SysState where
  lock : Option Nat
  phase : Nat → Nat
  ledger : List Account

/-- Initial state: no lock holder, no worker started, starting ledger. -/
def initState (l : List Account) : SysState :=
  ⟨none, fun _ => 0, l⟩

/-- One transition of the dispatcher model, labelled by the worker index
and step kind (0 = acquire both mutexes, 1 = withdraw leg, 2 = deposit leg
and release). A worker must hold the lock to mutate the ledger. -/
inductive StepL (queue : List Transaction) :
    SysState → Nat × Nat → SysState → Prop where
  | acquire (s : SysState) (i : Nat) (hi : i < queue.length)
      (hp : s.phase i = 0) (hl : s.lock = none) :
      StepL queue s (i, 0) ⟨some i, Function.update s.phase i 1, s.ledger⟩
  | withdrawStep (s : SysState) (i : Nat) (hi : i < queue.length)
      (hp : s.phase i = 1) (hl : s.lock = some i) :
      StepL queue s (i, 1)
        ⟨some i, Function.update s.phase i 2,
          withdraw_leg_state (queue.getD i default) s.ledger⟩
  | depositStep (s : SysState) (i : Nat) (hi : i < queue.length)
      (hp : s.phase i = 2) (hl : s.lock = some i) :
      StepL queue s (i, 2)
        ⟨none, Function.update s.phase i 3,
          deposit_leg_state (queue.getD i default) s.ledger⟩

/-- A run of the dispatcher model: a sequence of transitions, recording
the trace of labels. -/
inductive RunTr (queue : List Transaction) :
    SysState → List (Nat × Nat) → SysState → Prop where
  | refl (s : SysState) : RunTr queue s [] s
  | step {s s₁ s₂ : SysState} {lb : Nat × Nat} {tr : List (Nat × Nat)} :
      StepL queue s lb s₁ → RunTr queue s₁ tr s₂ →
      RunTr queue s (lb :: tr) s₂

/-- Serial execution of the transactions at the given indices, in order. -/
def foldIdx (queue : List Transaction) (hist : List Nat)
    (l : List Account) : List Account :=
  hist.foldl (fun acc i => execute_tx_state (queue.getD i default) acc) l

theorem execute_eq_legs (t : Transaction) (l : List Account) :
    execute_tx_state t l = deposit_leg_state t (withdraw_leg_state t l) :=
  rfl

theorem foldIdx_append (queue : List Transaction) (hist : List Nat) (i : Nat)
    (l : List Account) :
    foldIdx queue (hist ++ [i]) l =
      execute_tx_state (queue.getD i default) (foldIdx queue hist l) := by
  simp [foldIdx]

/-- Invariant of the dispatcher model: `hist` is the order in which workers
have (so far) performed their withdraw step; it has no duplicates, contains
exactly the workers past phase 1, the lock holder is a real worker index,
and the ledger is the serial execution over `hist` - except that when the
lock holder is mid-transaction (phase 2) the last entry of `hist` has only
its withdraw leg applied so far. -/
def Coherent (queue : List Transaction) (l0 : List Account)
    (s : SysState) (hist : List Nat) : Prop :=
  hist.Nodup ∧
  (∀ i, i ∈ hist ↔ (i < queue.length ∧ 2 ≤ s.phase i)) ∧
  (∀ j, s.lock = some j → j < queue.length) ∧
  ((s.ledger = foldIdx queue hist l0 ∧
      ∀ j, s.lock = some j → s.phase j ≠ 2) ∨
    (∃ j h2, s.lock = some j ∧ s.phase j = 2 ∧ hist = h2 ++ [j] ∧
      s.ledger =
        withdraw_leg_state (queue.getD j default) (foldIdx queue h2 l0)))

theorem coherent_init (queue : List Transaction) (l0 : List Account) :
    Coherent queue l0 (initState l0) [] := by
  refine ⟨List.nodup_nil, ?_, ?_, Or.inl ⟨rfl, ?_⟩⟩
  · intro i; simp [initState]
  · intro j hj; simp [initState] at hj
  · intro j hj; simp [initState] at hj

theorem coherent_step {queue : List Transaction} {l0 : List Account}
    {s s' : SysState} {lb : Nat × Nat} (hst : StepL queue s lb s')
    {hist : List Nat} (hc : Coherent queue l0 s hist) :
    ∃ hist', Coherent queue l0 s' hist' := by
  obtain ⟨hnd, hmem, hlk, hled⟩ := hc
  cases hst with
  | acquire i hi hp hl =>
    refine ⟨hist, hnd, ?_, ?_, ?_⟩
    · intro k
      by_cases hk : k = i
      · subst hk
        simp [Function.update_same, hmem, hp]
      · simpa [Function.update_noteq hk] using hmem k
    · intro j hj
      simp only [Option.some.injEq] at hj
      omega
    · rcases hled with ⟨hl1, _⟩ | ⟨j, h2, hlj, _⟩
      · refine Or.inl ⟨hl1, ?_⟩
        intro j hj
        simp only [Option.some.injEq] at hj
        subst hj
        simp [Function.update_same]
      · rw [hl] at hlj
        exact absurd hlj (by simp)
  | withdrawStep i hi hp hl =>
    have hnotmem : i ∉ hist := by
      intro hin
      have := (hmem i).mp hin
      omega
    have hl1 : s.ledger = foldIdx queue hist l0 := by
      rcases hled with ⟨hl1, _⟩ | ⟨j, h2, hlj, hpj, _⟩
      · exact hl1
      · rw [hl] at hlj
        have hji : j = i := by
          have := hlj.symm
          injection this
        subst hji
        omega
    refine ⟨hist ++ [i], ?_, ?_, ?_, ?_⟩
    · rw [List.nodup_append]
      refine ⟨hnd, List.nodup_singleton i, ?_⟩
      intro a ha hai
      rw [List.mem_singleton] at hai
      subst hai
      exact hnotmem ha
    · intro k
      by_cases hk : k = i
      · subst hk
        simp [Function.update_same, hi]
      · simp only [List.mem_append, List.mem_singleton, hk, or_false]
        simpa [Function.update_noteq hk] using hmem k
    · intro j hj
      simp only [Option.some.injEq] at hj
      omega
    · refine Or.inr ⟨i, hist, rfl, by simp [Function.update_same], rfl, ?_⟩
      rw [hl1]
  | depositStep i hi hp hl =>
    have hseg : ∃ h2, hist = h2 ++ [i] ∧
        s.ledger =
          withdraw_leg_state (queue.getD i default) (foldIdx queue h2 l0) := by
      rcases hled with ⟨_, hnol⟩ | ⟨j, h2, hlj, hpj, hh, hw⟩
      · exact absurd hp (hnol i hl)
      · rw [hl] at hlj
        have hji : j = i := by
          have := hlj.symm
          injection this
        subst hji
        exact ⟨h2, hh, hw⟩
    obtain ⟨h2, hh, hw⟩ := hseg
    refine ⟨hist, hnd, ?_, ?_, Or.inl ⟨?_, ?_⟩⟩
    · intro k
      by_cases hk : k = i
      · subst hk
        have hin : k ∈ hist := by
          rw [hh]
          simp
        refine iff_of_true hin ⟨hi, ?_⟩
        simp [Function.update_same]
      · simpa [Function.update_noteq hk] using hmem k
    · intro j hj
      exact absurd hj (by simp)
    · rw [hh, foldIdx_append, execute_eq_legs, ← hw]
    · intro j hj
      exact absurd hj (by simp)

theorem coherent_run {queue : List Transaction} {l0 : List Account}
    {s s' : SysState} {tr : List (Nat × Nat)} (h : RunTr queue s tr s')
    {hist : List Nat} (hc : Coherent queue l0 s hist) :
    ∃ hist', Coherent queue l0 s' hist' := by
  induction h generalizing hist with
  | refl => exact ⟨hist, hc⟩
  | step hst _ ih =>
    obtain ⟨hist1, hc1⟩ := coherent_step hst hc
    exact ih hc1

theorem range_map_getD (l : List Transaction) :
    (List.range l.length).map (fun i => l.getD i default) = l := by
  induction l with
  | nil => rfl
  | cons a t ih =>
    rw [List.length_cons, List.range_succ_eq_map]
    simp only [List.map_cons, List.getD_cons_zero, List.map_map]
    congr 1

/-- C8: serializability: any complete run of the dispatcher model (all
workers finished, from the initial state) leaves the ledger equal to a
serial execution of the queue in some order; no interleaving of two
workers' mutation steps can produce anything else, because the ledger is
only ever touched by the current lock holder. -/
theorem serializability (queue : List Transaction) (l0 : List Account)
    (tr : List (Nat × Nat)) (s : SysState)
    (hrun : RunTr queue (initState l0) tr s)
    (hdone : ∀ i, i < queue.length → s.phase i = 3) :
    ∃ txs, txs.Perm queue ∧ s.ledger = serialExec txs l0 := by
  obtain ⟨hist, hnd, hmem, hlk, hled⟩ :=
    coherent_run hrun (coherent_init queue l0)
  have hled1 : s.ledger = foldIdx queue hist l0 := by
    rcases hled with ⟨h, _⟩ | ⟨j, h2, hlj, hpj, _, _⟩
    · exact h
    · have hjlen := hlk j hlj
      have := hdone j hjlen
      omega
  have hperm : hist.Perm (List.range queue.length) := by
    rw [List.perm_ext_iff_of_nodup hnd (List.nodup_range _)]
    intro a
    rw [List.mem_range, hmem a]
    constructor
    · rintro ⟨h, _⟩
      exact h
    · intro h
      refine ⟨h, ?_⟩
      rw [hdone a h]
      omega
  refine ⟨hist.map (fun i => queue.getD i default), ?_, ?_⟩
  · have hp := hperm.map (fun i => queue.getD i default)
    rwa [range_map_getD] at hp
  · rw [hled1]
    unfold serialExec
    rw [List.foldl_map]
    rfl

/-- Number of steps of kind `k` (0 = acquire, 1 = withdraw, 2 = deposit) a
worker whose phase is `p` has already taken: each kind happens exactly at
the phase transition `k` to `k + 1`. -/
def phaseCount (k p : Nat) : Nat :=
  if k + 1 ≤ p then 1 else 0

theorem runTr_count {queue : List Transaction} {s s' : SysState}
    {tr : List (Nat × Nat)} (h : RunTr queue s tr s') (i k : Nat) :
    phaseCount k (s'.phase i) = phaseCount k (s.phase i) + tr.count (i, k) := by
  induction h with
  | refl => simp
  | step hst _ ih =>
    rw [ih, List.count_cons]
    cases hst with
    | acquire j hj hp hl =>
      by_cases hij : i = j
      · subst hij
        simp only [Function.update_same, hp, phaseCount, beq_iff_eq,
          Prod.mk.injEq, true_and]
        split_ifs <;> omega
      · simp only [Function.update_noteq hij, beq_iff_eq, Prod.mk.injEq]
        rw [if_neg (by intro hx; exact hij hx.1.symm)]
        omega
    | withdrawStep j hj hp hl =>
      by_cases hij : i = j
      · subst hij
        simp only [Function.update_same, hp, phaseCount, beq_iff_eq,
          Prod.mk.injEq, true_and]
        split_ifs <;> omega
      · simp only [Function.update_noteq hij, beq_iff_eq, Prod.mk.injEq]
        rw [if_neg (by intro hx; exact hij hx.1.symm)]
        omega
    | depositStep j hj hp hl =>
      by_cases hij : i = j
      · subst hij
        simp only [Function.update_same, hp, phaseCount, beq_iff_eq,
          Prod.mk.injEq, true_and]
        split_ifs <;> omega
      · simp only [Function.update_noteq hij, beq_iff_eq, Prod.mk.injEq]
        rw [if_neg (by intro hx; exact hij hx.1.symm)]
        omega

/-- C3: exactly-once execution: in any complete run of the dispatcher model
(all workers finished, from the initial state), each worker `i` acquired
the locks exactly once, applied its withdraw leg exactly once and applied
its deposit leg exactly once - the transaction at index `i` is read and
applied exactly once, never skipped and never repeated, whatever the
scheduling order was. -/
theorem exactly_once (queue : List Transaction) (l0 : List Account)
    (tr : List (Nat × Nat)) (s : SysState)
    (hrun : RunTr queue (initState l0) tr s)
    (hdone : ∀ i, i < queue.length → s.phase i = 3)
    (i : Nat) (hi : i < queue.length) :
    tr.count (i, 0) = 1 ∧ tr.count (i, 1) = 1 ∧ tr.count (i, 2) = 1 := by
  have h0 := runTr_count hrun i 0
  have h1 := runTr_count hrun i 1
  have h2 := runTr_count hrun i 2
  rw [hdone i hi] at h0 h1 h2
  simp only [initState, phaseCount] at h0 h1 h2
  norm_num at h0 h1 h2
  omega

/-- Combined effect of one worker's three steps on the model state. -/
def runWorker (queue : List Transaction) (i : Nat) (s : SysState) : SysState :=
  ⟨none,
    Function.update (Function.update (Function.update s.phase i 1) i 2) i 3,
    deposit_leg_state (queue.getD i default)
      (withdraw_leg_state (queue.getD i default) s.ledger)⟩

theorem worker_run (queue : List Transaction) (s : SysState) (i : Nat)
    (hi : i < queue.length) (hp : s.phase i = 0) (hl : s.lock = none) :
    RunTr queue s [(i, 0), (i, 1), (i, 2)] (runWorker queue i s) := by
  refine RunTr.step (StepL.acquire s i hi hp hl) ?_
  refine RunTr.step (StepL.withdrawStep _ i hi ?_ rfl) ?_
  · simp [Function.update_same]
  refine RunTr.step (StepL.depositStep _ i hi ?_ rfl) ?_
  · simp [Function.update_same]
  exact RunTr.refl _

theorem runTr_append {queue : List Transaction} {s₁ s₂ s₃ : SysState}
    {tr₁ tr₂ : List (Nat × Nat)} (h1 : RunTr queue s₁ tr₁ s₂)
    (h2 : RunTr queue s₂ tr₂ s₃) : RunTr queue s₁ (tr₁ ++ tr₂) s₃ := by
  induction h1 with
  | refl => exact h2
  | step hst _ ih => exact RunTr.step hst (ih h2)

/-- Workers of the dispatcher model executed sequentially in the given
order. -/
def runSeq (queue : List Transaction) (order : List Nat) (s : SysState) :
    SysState :=
  order.foldl (fun st i => runWorker queue i st) s

/-- Trace of the in-order schedule of the seven workers of `main`. -/
def demoTrace : List (Nat × Nat) :=
  [(0, 0), (0, 1), (0, 2), (1, 0), (1, 1), (1, 2), (2, 0), (2, 1), (2, 2),
   (3, 0), (3, 1), (3, 2), (4, 0), (4, 1), (4, 2), (5, 0), (5, 1), (5, 2),
   (6, 0), (6, 1), (6, 2)]

/-- The in-order schedule is an actual run of the dispatcher model on the
hard-coded queue and accounts. -/
theorem demoRun : RunTr mainQueue (initState mainAccounts) demoTrace
    (runSeq mainQueue [0, 1, 2, 3, 4, 5, 6] (initState mainAccounts)) := by
  refine runTr_append (worker_run _ _ 0 (by decide) rfl rfl) ?_
  refine runTr_append (worker_run _ _ 1 (by decide) (by decide) rfl) ?_
  refine runTr_append (worker_run _ _ 2 (by decide) (by decide) rfl) ?_
  refine runTr_append (worker_run _ _ 3 (by decide) (by decide) rfl) ?_
  refine runTr_append (worker_run _ _ 4 (by decide) (by decide) rfl) ?_
  refine runTr_append (worker_run _ _ 5 (by decide) (by decide) rfl) ?_
  refine runTr_append (worker_run _ _ 6 (by decide) (by decide) rfl) ?_
  exact RunTr.refl _

/-- Witness for C3 at the in-order schedule of the hard-coded program:
worker 0 acquires, withdraws and deposits exactly once. -/
theorem exactly_once_witness :
    demoTrace.count (0, 0) = 1 ∧ demoTrace.count (0, 1) = 1 ∧
      demoTrace.count (0, 2) = 1 :=
  exactly_once mainQueue mainAccounts demoTrace
    (runSeq mainQueue [0, 1, 2, 3, 4, 5, 6] (initState mainAccounts))
    demoRun (by decide) 0 (by decide)

/-- Witness for C8 at the in-order schedule of the hard-coded program. -/
theorem serializability_witness :
    ∃ txs, txs.Perm mainQueue ∧
      (runSeq mainQueue [0, 1, 2, 3, 4, 5, 6]
          (initState mainAccounts)).ledger = serialExec txs mainAccounts :=
  serializability mainQueue mainAccounts demoTrace
    (runSeq mainQueue [0, 1, 2, 3, 4, 5, 6] (initState mainAccounts))
    demoRun (by decide)

/-- Witness for C4: a transaction with an empty withdraw name on a
one-account ledger runs only its deposit leg, silently. -/
theorem missing_account_leg_witness :
    find_account [(⟨"A1", 0⟩ : Account)] "" = none ∧
    execute_transaction ⟨1, 5, "", "A1"⟩ [⟨"A1", 0⟩] =
      ((deposit_leg ⟨1, 5, "", "A1"⟩ [⟨"A1", 0⟩]).1,
        .currentTx 1 ::
          ((deposit_leg ⟨1, 5, "", "A1"⟩ [⟨"A1", 0⟩]).2 ++
            [.txCompleted 1])) := by
  refine ⟨by decide, ?_⟩
  have h := missing_account_leg ⟨1, 5, "", "A1"⟩ [⟨"A1", 0⟩] true (by decide)
  simpa +decide using h
